import Mathlib

/-!
Shallow embedding of the storage-access layer of luxo-rs: the error taxonomy
and OS-error classification, the page-size resolver, open-file-description
byte-range locks, aligned file regions and memory-mapped segments, the
process-wide `FileSerial` registry, and the recursive binary search of the
`algo::search` module. Every definition mirrors the corresponding Rust item;
OS interactions (fcntl results, sysconf results, syscall outcomes) are
supplied as explicit oracle parameters.
-/

namespace Luxor

/-- Unix errno values distinguished by the embedded code paths
(`nix::errno::Errno`); every other value is carried by `other`. -/
inductive Errno where
  | eintr
  | eagain
  | eacces
  | enoent
  | einval
  | other (code : Nat)
deriving DecidableEq

/-- The `std::io::ErrorKind` values matched by `From<std::io::Error> for
IOError` in src/fs/errors.rs, plus `wouldBlock` (what EAGAIN maps to in the
standard library) and a catch-all for every remaining kind. -/
inductive ErrorKind where
  | permissionDenied
  | notFound
  | interrupted
  | invalidInput
  | wouldBlock
  | otherKind (code : Nat)
deriving DecidableEq

/-- The `IOError` from src/fs/errors.rs. Each variant carries its source
`std::io::Error`, modelled here by that error's kind. -/
inductive IOError where
  | AccessDeniedError (source : ErrorKind)
  | FileNotFoundError (source : ErrorKind)
  | Interrupted (source : ErrorKind)
  | InvalidInput (source : ErrorKind)
  | Generic (source : ErrorKind)
deriving DecidableEq

/-- The `impl From<std::io::Error> for IOError` (src/fs/errors.rs): classify an
OS-level error into exactly one typed variant by its kind; the wildcard arm
sends every unmatched kind to `Generic`. -/
def IOError.fromKind (value : ErrorKind) : IOError :=
  match value with
  | .permissionDenied => .AccessDeniedError value
  | .notFound => .FileNotFoundError value
  | .interrupted => .Interrupted value
  | .invalidInput => .InvalidInput value
  | .wouldBlock => .Generic value
  | .otherKind c => .Generic (.otherKind c)

/-- The kind that `std::io::Error::from(errno)` reports for each errno,
per the Rust standard library's raw-OS-error decoding table. -/
def Errno.toErrorKind : Errno → ErrorKind
  | .eacces => .permissionDenied
  | .enoent => .notFound
  | .eintr => .interrupted
  | .einval => .invalidInput
  | .eagain => .wouldBlock
  | .other c => .otherKind c

/-- The `impl From<Errno> for IOError` (src/os/unix/errors.rs):
`IOError::from(std::io::Error::from(value))`. -/
def IOError.fromErrno (value : Errno) : IOError :=
  IOError.fromKind value.toErrorKind

/-- Outcome of one positioned `read_at`/`write_at` system call: either a
byte count or an OS error of some kind. -/
inductive SyscallOutcome where
  | ok (n : Nat)
  | err (kind : ErrorKind)
deriving DecidableEq

/-- The `ReadableFile::read` for `LuxorFile` (src/os/unix/fs.rs):
`Ok(self.file.read_at(buf, offset)?)` — one syscall, whose error is
classified through `From<std::io::Error>` and returned; no internal retry. -/
def LuxorFile.read (outcome : SyscallOutcome) : Except IOError Nat :=
  match outcome with
  | .ok n => .ok n
  | .err kind => .error (IOError.fromKind kind)

/-- The `WritableFile::write` for `LuxorFile` (src/os/unix/fs.rs):
`Ok(self.file.write_at(buf, offset)?)` — one syscall, whose error is
classified through `From<std::io::Error>` and returned; no internal retry. -/
def LuxorFile.write (outcome : SyscallOutcome) : Except IOError Nat :=
  match outcome with
  | .ok n => .ok n
  | .err kind => .error (IOError.fromKind kind)

/-- Outcome of `nix::unistd::sysconf(SysconfVar::PAGE_SIZE)`:
`Ok(Some(v))`, `Ok(None)` (variable unsupported), or `Err(errno)`. -/
inductive SysconfOutcome where
  | okSome (value : Nat)
  | okNone
  | err (errno : Errno)
deriving DecidableEq

/-- The `FALLBACK_MEM_PAGE_SIZE` from src/os/unix/unistd.rs. -/
def FALLBACK_MEM_PAGE_SIZE : Nat := 4096

/-- The `init_sys_page_size` (src/os/unix/unistd.rs): the initializer of the
memoized `SYS_PAGE_SIZE` static. Returns the sysconf value on success and
the fixed fallback when the variable is unsupported or errno is set. -/
def init_sys_page_size (outcome : SysconfOutcome) : Nat :=
  match outcome with
  | .okSome value => value
  | .okNone => FALLBACK_MEM_PAGE_SIZE
  | .err _ => FALLBACK_MEM_PAGE_SIZE

/-- The `sys_page_size` (src/os/unix/unistd.rs): dereferences the memoized
static, whose value is `init_sys_page_size` applied to the single OS query
performed on first use. -/
def sys_page_size (outcome : SysconfOutcome) : Nat :=
  init_sys_page_size outcome

/-- The `nix::unistd::Whence` as used here: `file_lock` always passes
`Whence::SeekSet`. -/
inductive Whence where
  | seekSet
deriving DecidableEq

/-- Lock type constants `F_RDLCK` / `F_WRLCK` / `F_UNLCK`. -/
inductive LockType where
  | rdlck
  | wrlck
  | unlck
deriving DecidableEq

/-- The `flock` struct filled in by `read`/`write`/`try_read`/`try_write`
(src/fs/os/unix/linux/fs.rs). -/
structure Flock where
  l_type : LockType
  l_whence : Whence
  l_start : Int
  l_len : Int
  l_pid : Int
deriving DecidableEq

/-- Outcome of one `fcntl` lock call. -/
inductive FcntlOutcome where
  | ok
  | err (errno : Errno)
deriving DecidableEq

/-- The `OpenFileDescriptorLock` (src/fs/os/unix/linux/fs.rs): a byte-range lock
descriptor bound to one raw file descriptor. -/
structure OpenFileDescriptorLock where
  fd : Int
  whence : Whence
  start : Int
  length : Int
deriving DecidableEq

/-- The `OFDLockGuard` (src/fs/os/unix/linux/fs.rs): the RAII token returned on
successful acquisition. -/
structure OFDLockGuard where
  fd : Int
  whence : Whence
  start : Int
  length : Int
deriving DecidableEq

/-- The `LockableFile::file_lock` for `LuxorFile`: binds the handle's raw
descriptor with the requested byte range, whence fixed to `SeekSet`. -/
def LuxorFile.file_lock (fd : Int) (offset : Int) (length : Int) :
    OpenFileDescriptorLock :=
  { fd := fd, whence := .seekSet, start := offset, length := length }

/-- The `OpenFileDescriptorLock::lock` (src/fs/os/unix/linux/fs.rs): the
blocking `loop` around `fcntl(F_OFD_SETLKW)`. The list supplies the
successive call outcomes; `none` models the loop still spinning after every
supplied outcome was EINTR. -/
def OpenFileDescriptorLock.lock (self : OpenFileDescriptorLock)
    (description : Flock) (outcomes : List FcntlOutcome) :
    Option (Except IOError OFDLockGuard) :=
  match outcomes with
  | [] => none
  | .ok :: _ =>
      some (.ok { fd := self.fd, whence := self.whence,
                  start := self.start, length := self.length })
  | .err errno :: rest =>
      if errno = .eintr then self.lock description rest
      else some (.error (IOError.fromErrno errno))

/-- The `OpenFileDescriptorLock::try_lock` (src/fs/os/unix/linux/fs.rs): one
`fcntl(F_OFD_SETLK)` call; EAGAIN yields `Ok(None)`, every other errno is
classified into an `IOError`. -/
def OpenFileDescriptorLock.try_lock (self : OpenFileDescriptorLock)
    (description : Flock) (outcome : FcntlOutcome) :
    Except IOError (Option OFDLockGuard) :=
  match outcome with
  | .ok =>
      .ok (some { fd := self.fd, whence := self.whence,
                  start := self.start, length := self.length })
  | .err errno =>
      if errno = .eagain then .ok none
      else .error (IOError.fromErrno errno)

/-- The `flock` built by `FileRwLock::read` for `OpenFileDescriptorLock`. -/
def OpenFileDescriptorLock.readFlock (self : OpenFileDescriptorLock) : Flock :=
  { l_type := .rdlck, l_whence := .seekSet, l_start := self.start,
    l_len := self.length, l_pid := 0 }

/-- The `flock` built by `FileRwLock::write` for `OpenFileDescriptorLock`. -/
def OpenFileDescriptorLock.writeFlock (self : OpenFileDescriptorLock) : Flock :=
  { l_type := .wrlck, l_whence := .seekSet, l_start := self.start,
    l_len := self.length, l_pid := 0 }

/-- The `FileRwLock::read` for `OpenFileDescriptorLock`: shared blocking
acquisition, `self.lock(&flock)`. -/
def OpenFileDescriptorLock.read (self : OpenFileDescriptorLock)
    (outcomes : List FcntlOutcome) : Option (Except IOError OFDLockGuard) :=
  self.lock self.readFlock outcomes

/-- The `FileRwLock::write` for `OpenFileDescriptorLock`: exclusive blocking
acquisition, `self.lock(&flock)`. -/
def OpenFileDescriptorLock.write (self : OpenFileDescriptorLock)
    (outcomes : List FcntlOutcome) : Option (Except IOError OFDLockGuard) :=
  self.lock self.writeFlock outcomes

/-- The `FileRwLock::try_read` for `OpenFileDescriptorLock`: shared
non-blocking acquisition, `self.try_lock(&flock)`. -/
def OpenFileDescriptorLock.try_read (self : OpenFileDescriptorLock)
    (outcome : FcntlOutcome) : Except IOError (Option OFDLockGuard) :=
  self.try_lock self.readFlock outcome

/-- The `FileRwLock::try_write` for `OpenFileDescriptorLock`: exclusive
non-blocking acquisition, `self.try_lock(&flock)`. -/
def OpenFileDescriptorLock.try_write (self : OpenFileDescriptorLock)
    (outcome : FcntlOutcome) : Except IOError (Option OFDLockGuard) :=
  self.try_lock self.writeFlock outcome

/-- The `LuxorError` (src/common/errors.rs): the alignment-violation error,
naming the offending value and the required alignment as strings. -/
inductive LuxorError where
  | AlignmentError (value : String) (alignment : String)
deriving DecidableEq

/-- The `AlignedFileRegion` (src/fs/mmap.rs): a byte offset and length intended
to be page-size multiples. `offset` is `u64`, `length` is `usize`. -/
structure AlignedFileRegion where
  offset : Nat
  length : Nat
deriving DecidableEq

/-- The `AlignedFileRegion::new` (src/fs/mmap.rs). The page size obtained from
`sys_page_size()` is passed explicitly; the OS guarantees it is positive, so
the `%` operations cannot divide by zero. The offset is checked first, then
the length; each failure names the offending value and the alignment. -/
def AlignedFileRegion.new (page_size : Nat) (offset : Nat) (length : Nat) :
    Except LuxorError AlignedFileRegion :=
  if offset % page_size ≠ 0 then
    .error (.AlignmentError (Nat.repr offset) (Nat.repr page_size))
  else if length % page_size ≠ 0 then
    .error (.AlignmentError (Nat.repr length) (Nat.repr page_size))
  else
    .ok { offset := offset, length := length }

/-- One more than the largest value representable in `u64`/`usize`. -/
def U64_LIMIT : Nat := 2 ^ 64

/-- The `u64::next_multiple_of` / `usize::next_multiple_of` of the Rust standard
library: `match self % rhs { 0 => self, r => self + (rhs - r) }` on 64-bit
integers with overflow checks — `none` models the panic on `rhs == 0`
(division by zero) or on the checked addition overflowing `u64::MAX`. -/
def nextMultipleOf64 (x : Nat) (m : Nat) : Option Nat :=
  if m = 0 then none
  else if x % m = 0 then some x
  else if x + (m - x % m) < U64_LIMIT then some (x + (m - x % m))
  else none

/-- The `AlignedFileRegion::new_aligned` (src/fs/mmap.rs): rounds each input up
to the next page-size multiple via `next_multiple_of`. -/
def AlignedFileRegion.new_aligned (page_size : Nat) (min_offset : Nat)
    (min_length : Nat) : Option AlignedFileRegion :=
  match nextMultipleOf64 min_offset page_size,
        nextMultipleOf64 min_length page_size with
  | some aligned_offset, some aligned_length =>
      some { offset := aligned_offset, length := aligned_length }
  | _, _ => none

/-- The complete leading chunks of size `n` of a byte slice: the `body`
produced by `slice::align_to::<T>` for a type of size `n` and alignment 1,
each chunk listed as its bytes. -/
def chunksExact (n : Nat) (s : List UInt8) : List (List UInt8) :=
  if h : 0 < n ∧ n ≤ s.length then
    s.take n :: chunksExact n (s.drop n)
  else []
termination_by s.length
decreasing_by simp only [List.length_drop]; omega

/-- The `slice::align_to::<T>` on a `[u8]` slice, for `T` of size `n` and
alignment 1 (the layout the callers are required to guarantee). The standard
library returns `(self, [], [])` whenever `T` is zero-sized; otherwise, with
alignment 1 the head is empty, the body holds every complete `n`-byte chunk
and the tail the remaining bytes. -/
def alignToBytes (s : List UInt8) (n : Nat) :
    List UInt8 × List (List UInt8) × List UInt8 :=
  if n = 0 then (s, [], [])
  else ([], chunksExact n s, s.drop (n * (s.length / n)))

/-- The `MappedMemorySegment` (src/fs/mmap.rs): the mapped bytes. -/
structure MappedMemorySegment where
  data : List UInt8
deriving DecidableEq

/-- The `MappedMemorySegment::len`. -/
def MappedMemorySegment.len (self : MappedMemorySegment) : Nat :=
  self.data.length

/-- The `MappedMemorySegment::transmute_unchecked::<T>` (src/fs/mmap.rs) for a
`T` of size `n` and alignment 1: `let (_head, body, _tail) =
self.data[offset..].align_to(); &body[0]`. The returned reference is
modelled by the bytes it covers; `.error` models the two possible panics
(range start out of range in the slice indexing, and index out of bounds on
an empty `body`). -/
def MappedMemorySegment.transmute_unchecked (self : MappedMemorySegment)
    (offset : Nat) (n : Nat) : Except String (List UInt8) :=
  if offset ≤ self.data.length then
    match (alignToBytes (self.data.drop offset) n).2.1 with
    | [] => .error "index out of bounds"
    | body0 :: _ => .ok body0
  else .error "range start index out of range for slice"

/-- The `MappedMemorySegment::transmute_as_mut_unchecked::<T>` (src/fs/mmap.rs):
identical to `transmute_unchecked` except for going through
`align_to_mut` and returning a mutable reference. -/
def MappedMemorySegment.transmute_as_mut_unchecked (self : MappedMemorySegment)
    (offset : Nat) (n : Nat) : Except String (List UInt8) :=
  if offset ≤ self.data.length then
    match (alignToBytes (self.data.drop offset) n).2.1 with
    | [] => .error "index out of bounds"
    | body0 :: _ => .ok body0
  else .error "range start index out of range for slice"

/-- The `binary_search_internal` (src/algo/search.rs) with `T = U` an integer
and the identity resolver. `low`/`high` are `usize`; `.error` models the
panics of debug-checked Rust: the `index - 1` underflow in the `Greater`
branch when `index == 0`, and an out-of-bounds `haystack[index]`. -/
def binary_search_internal (haystack : List Int) (low : Nat) (high : Nat)
    (needle : Int) : Except String (Option Nat) :=
  if hge : high ≥ low then
    if hidx : low + (high - low) / 2 < haystack.length then
      match compare (haystack.get ⟨low + (high - low) / 2, hidx⟩) needle with
      | .eq => .ok (some (low + (high - low) / 2))
      | .lt => binary_search_internal haystack (low + (high - low) / 2 + 1)
          high needle
      | .gt =>
          if hz : low + (high - low) / 2 = 0 then
            .error "attempt to subtract with overflow"
          else binary_search_internal haystack low
            (low + (high - low) / 2 - 1) needle
    else .error "index out of bounds"
  else .ok none
termination_by (high + 1) - low
decreasing_by
  · omega
  · omega

/-- The `binary_search` (src/algo/search.rs): empty haystack short-circuits to
`None`; otherwise delegates to the recursive search over the full range. -/
def binary_search (haystack : List Int) (needle : Int) :
    Except String (Option Nat) :=
  if haystack.isEmpty then .ok none
  else binary_search_internal haystack 0 (haystack.length - 1) needle

/-- One slot of the global `SERIALS` vector (src/io/luxor_file.rs): a
`Weak<FileSerial>` reference. `key` is the serial's inode key and `strong`
the current `Arc` strong count of the referenced `FileSerial`; a slot with
`strong = 0` is an expired weak reference (`upgrade()` returns `None`). -/
structure SerialEntry where
  key : Nat
  strong : Nat
deriving DecidableEq, Inhabited

/-- The comparator passed to `list.sort_by` in `FileSerial::find`: expired
references sort after all live ones and compare equal to each other; live
references compare by key. -/
def serialCompare (a b : SerialEntry) : Ordering :=
  if a.strong = 0 then (if b.strong = 0 then .eq else .gt)
  else if b.strong = 0 then .lt
  else compare a.key b.key

/-- The non-strict order induced by `serialCompare`; `Vec::sort_by` sorts
into this order. -/
def serialLE (a b : SerialEntry) : Prop :=
  serialCompare a b ≠ Ordering.gt

instance : DecidableRel serialLE := fun a b => by
  unfold serialLE
  infer_instance

instance : IsTotal SerialEntry serialLE :=
  ⟨fun a b => by
    unfold serialLE serialCompare
    by_cases ha : a.strong = 0 <;> by_cases hb : b.strong = 0 <;>
      simp [ha, hb, Nat.compare_eq_gt] <;> omega⟩

instance : IsTrans SerialEntry serialLE :=
  ⟨fun a b c hab hbc => by
    unfold serialLE serialCompare at hab hbc ⊢
    by_cases ha : a.strong = 0 <;> by_cases hb : b.strong = 0 <;>
      by_cases hc : c.strong = 0 <;>
      simp [ha, hb, hc, Nat.compare_eq_gt] at hab hbc ⊢ <;> omega⟩

/-- The `Vec::sort_by(serialCompare)`. Rust's sort is a stable comparison sort
and `serialCompare` induces a total preorder, so any stable comparison sort
produces the same list; insertion sort is used as the model. -/
def sortSerials (list : List SerialEntry) : List SerialEntry :=
  List.insertionSort serialLE list

/-- The comparator closure passed to `binary_search_by` in
`find_existing_serial`: a live element compares its key against the probe
key, an expired element compares as `Less`. -/
def serialProbe (key : Nat) (elem : SerialEntry) : Ordering :=
  if elem.strong = 0 then .lt else compare elem.key key

/-- The search loop of `slice::binary_search_by` from the Rust standard
library, on the half-open range `[left, right)`:
`mid = left + (right - left) / 2`; `Less` moves `left` past `mid`,
`Greater` moves `right` down to `mid`, `Equal` returns `Ok(mid)`; an empty
range returns `Err(left)`. -/
def rustBinarySearchGo (f : SerialEntry → Ordering) (list : List SerialEntry)
    (left : Nat) (right : Nat) : Except Nat Nat :=
  if h : left < right then
    match f (list.getD (left + (right - left) / 2) default) with
    | .eq => .ok (left + (right - left) / 2)
    | .lt => rustBinarySearchGo f list (left + (right - left) / 2 + 1) right
    | .gt => rustBinarySearchGo f list left (left + (right - left) / 2)
  else .error left
termination_by right - left
decreasing_by
  · omega
  · omega

/-- The `slice::binary_search_by` over the whole vector. -/
def rustBinarySearchBy (f : SerialEntry → Ordering)
    (list : List SerialEntry) : Except Nat Nat :=
  rustBinarySearchGo f list 0 list.length

/-- The `find_existing_serial` (src/io/luxor_file.rs): binary-search the global
list with `serialProbe`; on `Ok(index)`, `Weak::upgrade(&list[index])?`
yields the shared serial — modelled by the index of the slot — provided the
slot is still live. -/
def find_existing_serial (list : List SerialEntry) (key : Nat) : Option Nat :=
  match rustBinarySearchBy (serialProbe key) list with
  | .ok index =>
      if (list.getD index default).strong ≠ 0 then some index else none
  | .error _ => none

/-- What `FileSerial::find` returned: a new shared handle to an existing
live serial (identified by its slot index), or a freshly created serial. -/
inductive FindResult where
  | existing (index : Nat)
  | created
deriving DecidableEq

/-- The `FileSerial::find` (src/io/luxor_file.rs), given the resolved `key`:
return another shared handle to an existing live serial (raising its strong
count by one), or create a new serial with strong count 1, push its weak
reference and re-sort the list. -/
def FileSerial.find (list : List SerialEntry) (key : Nat) :
    FindResult × List SerialEntry :=
  match find_existing_serial list key with
  | some index =>
      (.existing index,
        list.set index
          { key := (list.getD index default).key,
            strong := (list.getD index default).strong + 1 })
  | none =>
      (.created, sortSerials (list ++ [{ key := key, strong := 1 }]))

/-- The `Iterator::rposition`: index of the last element satisfying `p`. -/
def rposition (p : SerialEntry → Bool) : List SerialEntry → Option Nat
  | [] => none
  | x :: xs =>
      match rposition p xs with
      | some i => some (i + 1)
      | none => if p x then some 0 else none

/-- The body of `impl Drop for FileSerial` (src/io/luxor_file.rs), acting on
the global list: remove the last slot whose strong count is zero; if none
exists, log a diagnostic (the boolean) and leave the list unchanged. -/
def FileSerial.dropFromList (list : List SerialEntry) :
    List SerialEntry × Bool :=
  match rposition (fun element => element.strong == 0) list with
  | some index => (list.eraseIdx index, false)
  | none => (list, true)

/-- Dropping one `Arc<FileSerial>` handle whose registry slot is `index`:
the strong count decrements; when it reaches zero the `FileSerial` is
destroyed and its `Drop` impl prunes the expired slot from the list. -/
def dropHandle (list : List SerialEntry) (index : Nat) : List SerialEntry :=
  if (list.getD index default).strong ≤ 1 then
    (FileSerial.dropFromList
      (list.set index { key := (list.getD index default).key, strong := 0 })).1
  else
    list.set index
      { key := (list.getD index default).key,
        strong := (list.getD index default).strong - 1 }

/-- One registry-affecting event: a `FileSerial::find` call for a path
resolving to `key`, or the drop of one live handle previously returned by
`find` for `key`. -/
inductive RegOp where
  | find (key : Nat)
  | drop (key : Nat)
deriving DecidableEq

/-- Whether the registry currently holds a live serial for `key`. -/
def isLive (list : List SerialEntry) (key : Nat) : Bool :=
  list.any (fun e => e.key == key && e.strong != 0)

/-- The slot of the live serial for `key`, if any. -/
def liveIdx (list : List SerialEntry) (key : Nat) : Option Nat :=
  list.findIdx? (fun e => e.key == key && e.strong != 0)

/-- Apply one event to the registry state. A drop without a live serial for
its key cannot arise from a valid trace and leaves the state unchanged. -/
def applyOp (list : List SerialEntry) : RegOp → List SerialEntry
  | .find key => (FileSerial.find list key).2
  | .drop key =>
      match liveIdx list key with
      | some index => dropHandle list index
      | none => list

/-- Run a sequence of events from a starting registry state. -/
def execTrace (list : List SerialEntry) (ops : List RegOp) :
    List SerialEntry :=
  ops.foldl applyOp list

/-- A trace is valid from a state when every drop occurs while a live
handle for its key exists (a handle can only be dropped by a holder). -/
def validFrom (list : List SerialEntry) : List RegOp → Bool
  | [] => true
  | op :: rest =>
      (match op with
       | .find _ => true
       | .drop key => isLive list key) && validFrom (applyOp list op) rest

/-- Number of `find` events for `key` in a trace. -/
def countFind (key : Nat) (ops : List RegOp) : Nat :=
  ops.countP (fun op => op == .find key)

/-- Number of `drop` events for `key` in a trace. -/
def countDrop (key : Nat) (ops : List RegOp) : Nat :=
  ops.countP (fun op => op == .drop key)

/-- Total strong count held against `key`: the strong counts of every slot
whose serial has that key (at most one slot in any reachable state). -/
def strongOf (key : Nat) (list : List SerialEntry) : Nat :=
  (list.map (fun e => if e.key = key then e.strong else 0)).sum

/-- The keys of the registry slots, in slot order. -/
def keysOf (list : List SerialEntry) : List Nat :=
  list.map SerialEntry.key

/-- Registry invariant maintained by every reachable state: slots are
strictly sorted by key (hence keys are unique) and every weak reference is
live. -/
def RegInv (list : List SerialEntry) : Prop :=
  (keysOf list).Pairwise (· < ·) ∧ ∀ e ∈ list, e.strong ≠ 0

deriving instance DecidableEq for Except

/-! Lemmas and theorems. -/

/-- The `lock` skips any prefix of EINTR outcomes and settles on the first
decisive outcome: success yields the guard, any other errno yields the
classified error. -/
theorem lock_skips_eintr (self : OpenFileDescriptorLock) (descr : Flock)
    (pre rest : List FcntlOutcome) (d : FcntlOutcome)
    (hpre : ∀ x ∈ pre, x = .err .eintr) (hd : d ≠ .err .eintr) :
    self.lock descr (pre ++ d :: rest) =
      some (match d with
            | .ok => .ok { fd := self.fd, whence := self.whence,
                           start := self.start, length := self.length }
            | .err e => .error (IOError.fromErrno e)) := by
  induction pre with
  | nil =>
      cases d with
      | ok => rfl
      | err e =>
          have he : e ≠ Errno.eintr := by
            intro h
            exact hd (by rw [h])
          simp [OpenFileDescriptorLock.lock, he]
  | cons x xs ih =>
      have hx : x = FcntlOutcome.err .eintr := hpre x (by simp)
      subst hx
      have : ∀ y ∈ xs, y = FcntlOutcome.err .eintr := by
        intro y hy
        exact hpre y (by simp [hy])
      simpa [OpenFileDescriptorLock.lock] using ih this

/-- C3: the blocking acquisition methods `read()` and `write()` retry the
OS lock call transparently on every EINTR, returning `Ok(guard)` at the
first successful call and the classified `IOError` at the first errno that
is neither success nor EINTR; an interrupted wait is never surfaced. -/
theorem C3_blocking_lock_retries_eintr (self : OpenFileDescriptorLock)
    (pre rest : List FcntlOutcome) (d : FcntlOutcome)
    (hpre : ∀ x ∈ pre, x = .err .eintr) (hd : d ≠ .err .eintr) :
    self.read (pre ++ d :: rest) =
      some (match d with
            | .ok => .ok { fd := self.fd, whence := self.whence,
                           start := self.start, length := self.length }
            | .err e => .error (IOError.fromErrno e)) ∧
    self.write (pre ++ d :: rest) =
      some (match d with
            | .ok => .ok { fd := self.fd, whence := self.whence,
                           start := self.start, length := self.length }
            | .err e => .error (IOError.fromErrno e)) :=
  ⟨lock_skips_eintr self self.readFlock pre rest d hpre hd,
   lock_skips_eintr self self.writeFlock pre rest d hpre hd⟩

/-- Witness for C3: two interruptions followed by success yield the guard;
an interruption followed by EACCES yields the access-denied error. -/
theorem C3_blocking_lock_retries_eintr_witness :
    (∀ x ∈ [FcntlOutcome.err .eintr, FcntlOutcome.err .eintr],
      x = FcntlOutcome.err .eintr) ∧
    (FcntlOutcome.ok ≠ FcntlOutcome.err .eintr) ∧
    (OpenFileDescriptorLock.read ⟨3, .seekSet, 0, 1⟩
        ([FcntlOutcome.err .eintr, FcntlOutcome.err .eintr] ++
          FcntlOutcome.ok :: []) =
      some (.ok ⟨3, .seekSet, 0, 1⟩) ∧
    OpenFileDescriptorLock.write ⟨3, .seekSet, 0, 1⟩
        ([FcntlOutcome.err .eintr, FcntlOutcome.err .eintr] ++
          FcntlOutcome.ok :: []) =
      some (.ok ⟨3, .seekSet, 0, 1⟩)) :=
  ⟨by decide, by decide,
   C3_blocking_lock_retries_eintr ⟨3, .seekSet, 0, 1⟩
     [FcntlOutcome.err .eintr, FcntlOutcome.err .eintr] [] .ok
     (by decide) (by decide)⟩

/-- C4: the non-blocking acquisition methods return `Ok(None)` on EAGAIN —
contention is an absence value, never an error — `Ok(Some(guard))` on
success, and the classified `IOError` for every other errno. -/
theorem C4_try_lock_contention_is_absence (self : OpenFileDescriptorLock) :
    (self.try_read .ok =
      .ok (some { fd := self.fd, whence := self.whence,
                  start := self.start, length := self.length })) ∧
    (self.try_write .ok =
      .ok (some { fd := self.fd, whence := self.whence,
                  start := self.start, length := self.length })) ∧
    (self.try_read (.err .eagain) = .ok none) ∧
    (self.try_write (.err .eagain) = .ok none) ∧
    (∀ e : Errno, e ≠ .eagain →
      self.try_read (.err e) = .error (IOError.fromErrno e) ∧
      self.try_write (.err e) = .error (IOError.fromErrno e)) := by
  refine ⟨rfl, rfl, rfl, rfl, fun e he => ⟨?_, ?_⟩⟩ <;>
    simp [OpenFileDescriptorLock.try_read, OpenFileDescriptorLock.try_write,
      OpenFileDescriptorLock.try_lock, he]

/-- Witness for C4: ENOENT from the non-blocking call surfaces as the
classified file-not-found error. -/
theorem C4_try_lock_contention_is_absence_witness :
    (Errno.enoent ≠ Errno.eagain) ∧
    (OpenFileDescriptorLock.try_read ⟨3, .seekSet, 0, 1⟩ (.err .enoent) =
      .error (IOError.fromErrno .enoent) ∧
    OpenFileDescriptorLock.try_write ⟨3, .seekSet, 0, 1⟩ (.err .enoent) =
      .error (IOError.fromErrno .enoent)) :=
  ⟨by decide,
   (C4_try_lock_contention_is_absence ⟨3, .seekSet, 0, 1⟩).2.2.2.2 .enoent
     (by decide)⟩

/-- C7: every OS-level error is classified into exactly one typed variant by
its kind — permission denied, not found, interrupted and invalid input to
their dedicated variants, everything else to `Generic` — and positioned
read/write surface the interrupted condition as the distinct `Interrupted`
variant instead of retrying internally. -/
theorem C7_error_classification :
    (IOError.fromKind .permissionDenied =
      .AccessDeniedError .permissionDenied) ∧
    (IOError.fromKind .notFound = .FileNotFoundError .notFound) ∧
    (IOError.fromKind .interrupted = .Interrupted .interrupted) ∧
    (IOError.fromKind .invalidInput = .InvalidInput .invalidInput) ∧
    (IOError.fromKind .wouldBlock = .Generic .wouldBlock) ∧
    (∀ c : Nat, IOError.fromKind (.otherKind c) = .Generic (.otherKind c)) ∧
    (∀ e : Errno, IOError.fromErrno e = IOError.fromKind e.toErrorKind) ∧
    (∀ kind : ErrorKind,
      LuxorFile.read (.err kind) = .error (IOError.fromKind kind) ∧
      LuxorFile.write (.err kind) = .error (IOError.fromKind kind)) ∧
    (LuxorFile.read (.err .interrupted) =
      .error (.Interrupted .interrupted)) ∧
    (LuxorFile.write (.err .interrupted) =
      .error (.Interrupted .interrupted)) :=
  ⟨rfl, rfl, rfl, rfl, rfl, fun _ => rfl, fun _ => rfl,
   fun _ => ⟨rfl, rfl⟩, rfl, rfl⟩

/-- C9: `sys_page_size` never fails visibly: a successful OS query returns
the reported value, and an unsupported variable or an OS error degrades to
the fixed fallback 4096. -/
theorem C9_sys_page_size_never_fails :
    (∀ v : Nat, sys_page_size (.okSome v) = v) ∧
    (sys_page_size .okNone = 4096) ∧
    (∀ e : Errno, sys_page_size (.err e) = 4096) :=
  ⟨fun _ => rfl, rfl, fun _ => rfl⟩

/-- C5: for positive page-size multiples `new` succeeds returning the
inputs unchanged; a non-multiple fails with an alignment error naming the
first non-conforming value and the required alignment. -/
theorem C5_aligned_region_new (page_size offset length : Nat)
    (hps : 0 < page_size) :
    (0 < offset → 0 < length → page_size ∣ offset → page_size ∣ length →
      AlignedFileRegion.new page_size offset length =
        .ok { offset := offset, length := length }) ∧
    (¬ page_size ∣ offset →
      AlignedFileRegion.new page_size offset length =
        .error (.AlignmentError (Nat.repr offset) (Nat.repr page_size))) ∧
    (page_size ∣ offset → ¬ page_size ∣ length →
      AlignedFileRegion.new page_size offset length =
        .error (.AlignmentError (Nat.repr length) (Nat.repr page_size))) := by
  have hdvd : ∀ a : Nat, page_size ∣ a ↔ a % page_size = 0 := fun a =>
    Nat.dvd_iff_mod_eq_zero
  refine ⟨fun _ _ ho hl => ?_, fun ho => ?_, fun ho hl => ?_⟩
  · rw [hdvd] at ho hl
    simp [AlignedFileRegion.new, ho, hl]
  · rw [hdvd] at ho
    simp [AlignedFileRegion.new, ho]
  · rw [hdvd] at ho hl
    simp [AlignedFileRegion.new, ho, hl]

/-- Witness for C5: page size 4096 with an aligned pair, a misaligned
offset, and a misaligned length. -/
theorem C5_aligned_region_new_witness :
    ((0:Nat) < 4096 ∧ (0:Nat) < 4096 ∧ (0:Nat) < 8192 ∧
      (4096:Nat) ∣ 4096 ∧ (4096:Nat) ∣ 8192 ∧ ¬ (4096:Nat) ∣ 1 ∧
      ¬ (4096:Nat) ∣ 4095) ∧
    (AlignedFileRegion.new 4096 4096 8192 =
      .ok { offset := 4096, length := 8192 }) ∧
    (AlignedFileRegion.new 4096 1 4096 =
      .error (.AlignmentError (Nat.repr 1) (Nat.repr 4096))) ∧
    (AlignedFileRegion.new 4096 4096 4095 =
      .error (.AlignmentError (Nat.repr 4095) (Nat.repr 4096))) :=
  ⟨by decide,
   (C5_aligned_region_new 4096 4096 8192 (by decide)).1 (by decide)
     (by decide) (by decide) (by decide),
   (C5_aligned_region_new 4096 1 4096 (by decide)).2.1 (by decide),
   (C5_aligned_region_new 4096 4096 4095 (by decide)).2.2 (by decide)
     (by decide)⟩

/-- The `nextMultipleOf64` succeeds whenever the rounded-up value fits in 64
bits, and then returns the least multiple of `m` that is at least `x`. -/
theorem nextMultipleOf64_spec (x m : Nat) (hm : 0 < m)
    (hfit : x % m = 0 ∨ x + (m - x % m) < U64_LIMIT) :
    ∃ y, nextMultipleOf64 x m = some y ∧ m ∣ y ∧ x ≤ y ∧ (y = x ↔ m ∣ x) := by
  have hm0 : m ≠ 0 := Nat.pos_iff_ne_zero.mp hm
  by_cases h0 : x % m = 0
  · refine ⟨x, ?_, Nat.dvd_of_mod_eq_zero h0, Nat.le_refl x, ?_⟩
    · simp [nextMultipleOf64, hm0, h0]
    · simp [Nat.dvd_of_mod_eq_zero h0]
  · have hlt : x + (m - x % m) < U64_LIMIT := hfit.resolve_left h0
    have hdm : m * (x / m) + x % m = x := Nat.div_add_mod x m
    have hrem : x % m < m := Nat.mod_lt x hm
    refine ⟨x + (m - x % m), ?_, ⟨x / m + 1, ?_⟩, Nat.le_add_right x _, ?_⟩
    · simp [nextMultipleOf64, hm0, h0, hlt]
    · rw [Nat.mul_add, Nat.mul_one]
      omega
    · have hxd : ¬ m ∣ x := by
        rw [Nat.dvd_iff_mod_eq_zero]
        exact h0
      constructor
      · intro h
        omega
      · intro h
        exact absurd h hxd

/-- Counterexample to C6 as stated: `new_aligned` is not total on 64-bit
inputs. At `min_offset = u64::MAX` with page size 4096 the checked addition
inside `next_multiple_of` exceeds `u64::MAX`: the call panics in
debug-checked builds (and in release builds wraps to 0, below the input),
instead of returning an aligned value at least the input. -/
theorem C6_counterexample :
    AlignedFileRegion.new_aligned 4096 (2 ^ 64 - 1) 0 = none := by decide

/-- C6 (amended): for every `min_offset` and `min_length` whose round-up
targets fit in 64 bits, `new_aligned` succeeds and returns page-size
multiples, each at least the corresponding input and equal to it exactly
when the input was already aligned. -/
theorem C6_new_aligned_rounds_up (page_size min_offset min_length : Nat)
    (hps : 0 < page_size)
    (ho : min_offset % page_size = 0 ∨
      min_offset + (page_size - min_offset % page_size) < U64_LIMIT)
    (hl : min_length % page_size = 0 ∨
      min_length + (page_size - min_length % page_size) < U64_LIMIT) :
    ∃ r : AlignedFileRegion,
      AlignedFileRegion.new_aligned page_size min_offset min_length =
        some r ∧
      page_size ∣ r.offset ∧ page_size ∣ r.length ∧
      min_offset ≤ r.offset ∧ min_length ≤ r.length ∧
      (r.offset = min_offset ↔ page_size ∣ min_offset) ∧
      (r.length = min_length ↔ page_size ∣ min_length) := by
  obtain ⟨yo, hyo, hdo, hleo, hiffo⟩ :=
    nextMultipleOf64_spec min_offset page_size hps ho
  obtain ⟨yl, hyl, hdl, hlel, hiffl⟩ :=
    nextMultipleOf64_spec min_length page_size hps hl
  exact ⟨{ offset := yo, length := yl },
    by simp [AlignedFileRegion.new_aligned, hyo, hyl],
    hdo, hdl, hleo, hlel, hiffo, hiffl⟩

/-- Witness for C6 (amended): rounding 5 and 8192 with page size 4096. -/
theorem C6_new_aligned_rounds_up_witness :
    ((0:Nat) < 4096) ∧
    ((5:Nat) % 4096 = 0 ∨ 5 + (4096 - (5:Nat) % 4096) < U64_LIMIT) ∧
    ((8192:Nat) % 4096 = 0 ∨ 8192 + (4096 - (8192:Nat) % 4096) < U64_LIMIT) ∧
    (∃ r : AlignedFileRegion,
      AlignedFileRegion.new_aligned 4096 5 8192 = some r ∧
      (4096:Nat) ∣ r.offset ∧ (4096:Nat) ∣ r.length ∧
      5 ≤ r.offset ∧ 8192 ≤ r.length ∧
      (r.offset = 5 ↔ (4096:Nat) ∣ 5) ∧
      (r.length = 8192 ↔ (4096:Nat) ∣ 8192)) :=
  ⟨by decide, by decide, by decide,
   C6_new_aligned_rounds_up 4096 5 8192 (by decide) (by decide) (by decide)⟩

/-- The `chunksExact` is empty when `n` is zero or exceeds the slice length. -/
theorem chunksExact_eq_nil (n : Nat) (s : List UInt8)
    (h : n = 0 ∨ s.length < n) : chunksExact n s = [] := by
  rw [chunksExact, dif_neg]
  omega

/-- The `chunksExact` peels off one complete chunk when one fits. -/
theorem chunksExact_cons (n : Nat) (s : List UInt8) (h1 : 0 < n)
    (h2 : n ≤ s.length) :
    chunksExact n s = s.take n :: chunksExact n (s.drop n) := by
  rw [chunksExact, dif_pos ⟨h1, h2⟩]

/-- The two transmute methods share one body (the mutable variant only
differs by going through `align_to_mut`). -/
theorem transmute_as_mut_eq (self : MappedMemorySegment) (offset n : Nat) :
    self.transmute_as_mut_unchecked offset n =
      self.transmute_unchecked offset n := rfl

/-- Counterexample to C2 as stated: for a zero-sized `T` (for example an
empty `#[repr(C, packed)]` struct, which is byte-packed), `align_to`
returns an empty body even inside bounds, so `&body[0]` panics instead of
returning a reference: at `offset = 0`, `size_of::<T>() = 0` on an empty
segment the bound `offset + size <= len()` holds and yet the call fails. -/
theorem C2_counterexample :
    (0 + 0 ≤ (MappedMemorySegment.mk []).len) ∧
    MappedMemorySegment.transmute_unchecked ⟨[]⟩ 0 0 ≠
      .ok ((([] : List UInt8).drop 0).take 0) := by decide

/-- C2 (amended): when `offset + size_of::<T>()` exceeds `len()` both
transmute methods stop with an explicit out-of-bounds panic instead of
returning a reference; for byte-packed `T` of nonzero size with
`offset + size_of::<T>() ≤ len()` they return the reference to the
`size_of::<T>()` bytes starting at `offset`. -/
theorem C2_transmute_bounds (data : List UInt8) (offset n : Nat) :
    (data.length < offset + n →
      (∃ msg, MappedMemorySegment.transmute_unchecked ⟨data⟩ offset n =
        .error msg) ∧
      (∃ msg, MappedMemorySegment.transmute_as_mut_unchecked ⟨data⟩ offset n =
        .error msg)) ∧
    (1 ≤ n → offset + n ≤ data.length →
      MappedMemorySegment.transmute_unchecked ⟨data⟩ offset n =
        .ok ((data.drop offset).take n) ∧
      MappedMemorySegment.transmute_as_mut_unchecked ⟨data⟩ offset n =
        .ok ((data.drop offset).take n)) := by
  constructor
  · intro hover
    rw [transmute_as_mut_eq]
    by_cases hoff : offset ≤ data.length
    · have hbody : (alignToBytes (data.drop offset) n).2.1 = [] := by
        by_cases hn : n = 0
        · simp [alignToBytes, hn]
        · have : (data.drop offset).length < n := by
            simp only [List.length_drop]
            omega
          simp [alignToBytes, hn, chunksExact_eq_nil n _ (Or.inr this)]
      constructor <;>
        exact ⟨"index out of bounds",
          by simp [MappedMemorySegment.transmute_unchecked, hoff, hbody]⟩
    · constructor <;>
        exact ⟨"range start index out of range for slice",
          by simp [MappedMemorySegment.transmute_unchecked, hoff]⟩
  · intro hn hle
    rw [transmute_as_mut_eq]
    have hoff : offset ≤ data.length := by omega
    have hlen : n ≤ (data.drop offset).length := by
      simp only [List.length_drop]
      omega
    have hbody : (alignToBytes (data.drop offset) n).2.1 =
        (data.drop offset).take n :: chunksExact n ((data.drop offset).drop n) := by
      have hn0 : n ≠ 0 := by omega
      simp [alignToBytes, hn0, chunksExact_cons n _ (by omega) hlen]
    constructor <;>
      simp [MappedMemorySegment.transmute_unchecked, hoff, hbody]

/-- Witness for C2 (amended): a four-byte segment, a two-byte type at
offset 1 (in bounds) and at offset 3 (out of bounds). -/
theorem C2_transmute_bounds_witness :
    (([1, 2, 3, 4] : List UInt8).length < 3 + 2) ∧
    ((1:Nat) ≤ 2) ∧ (1 + 2 ≤ ([1, 2, 3, 4] : List UInt8).length) ∧
    ((∃ msg, MappedMemorySegment.transmute_unchecked ⟨[1, 2, 3, 4]⟩ 3 2 =
        .error msg) ∧
      (∃ msg, MappedMemorySegment.transmute_as_mut_unchecked ⟨[1, 2, 3, 4]⟩ 3 2 =
        .error msg)) ∧
    (MappedMemorySegment.transmute_unchecked ⟨[1, 2, 3, 4]⟩ 1 2 =
        .ok ((([1, 2, 3, 4] : List UInt8).drop 1).take 2) ∧
      MappedMemorySegment.transmute_as_mut_unchecked ⟨[1, 2, 3, 4]⟩ 1 2 =
        .ok ((([1, 2, 3, 4] : List UInt8).drop 1).take 2)) :=
  ⟨by decide, by decide, by decide,
   (C2_transmute_bounds [1, 2, 3, 4] 3 2).1 (by decide),
   (C2_transmute_bounds [1, 2, 3, 4] 1 2).2 (by decide) (by decide)⟩

/-- C10, at the failing input: with a sorted non-empty haystack and a
needle smaller than every element, `binary_search` recurses into the
`Greater` branch at index 0 and computes `index - 1` on a `usize`,
stopping with an arithmetic underflow panic instead of returning `None`. -/
theorem C10_binary_search_underflow :
    binary_search [5] 3 = .error "attempt to subtract with overflow" := by
  simp [binary_search, binary_search_internal]
  decide

/-- The `rposition` finds nothing exactly when no element satisfies `p`. -/
theorem rposition_eq_none_iff (p : SerialEntry → Bool) (l : List SerialEntry) :
    rposition p l = none ↔ ∀ x ∈ l, p x = false := by
  induction l with
  | nil => simp [rposition]
  | cons x xs ih =>
      simp only [rposition, List.mem_cons]
      cases hr : rposition p xs with
      | some k =>
          constructor
          · intro h
            simp at h
          · intro h
            have hnone : rposition p xs = none :=
              ih.mpr (fun y hy => h y (Or.inr hy))
            rw [hnone] at hr
            cases hr
      | none =>
          have hall := ih.mp hr
          by_cases hx : p x = true
          · simp only [hx, if_true]
            constructor
            · intro h
              simp at h
            · intro h
              have := h x (Or.inl rfl)
              rw [hx] at this
              cases this
          · have hx' : p x = false := by simpa using hx
            simp only [hx', if_false]
            constructor
            · intro _ y hy
              rcases hy with rfl | hy
              · exact hx'
              · exact hall y hy
            · intro _
              rfl

/-- What `rposition p l = some i` guarantees: `i` is in range, its element
satisfies `p`, and no later element does. -/
theorem rposition_spec (p : SerialEntry → Bool) (l : List SerialEntry)
    (i : Nat) (h : rposition p l = some i) :
    i < l.length ∧ p (l.getD i default) = true ∧
      ∀ j, i < j → j < l.length → p (l.getD j default) = false := by
  induction l generalizing i with
  | nil => simp [rposition] at h
  | cons x xs ih =>
      simp only [rposition] at h
      cases hr : rposition p xs with
      | some k =>
          rw [hr] at h
          have hik : i = k + 1 := by
            cases h
            rfl
          subst hik
          obtain ⟨hk1, hk2, hk3⟩ := ih k hr
          refine ⟨by simp; omega, by simpa using hk2, ?_⟩
          intro j hj1 hj2
          cases j with
          | zero => omega
          | succ j' =>
              have hj2' : j' < xs.length := by
                simp at hj2
                omega
              simpa using hk3 j' (by omega) hj2'
      | none =>
          rw [hr] at h
          by_cases hx : p x = true
          · rw [if_pos hx] at h
            have hi0 : i = 0 := by
              cases h
              rfl
            subst hi0
            refine ⟨by simp, by simpa using hx, ?_⟩
            intro j hj1 hj2
            cases j with
            | zero => omega
            | succ j' =>
                have hall := (rposition_eq_none_iff p xs).mp hr
                have hj2' : j' < xs.length := by
                  simp at hj2
                  omega
                have hmem : xs.getD j' default ∈ xs := by
                  rw [List.getD_eq_getElem _ _ hj2']
                  exact List.getElem_mem hj2'
                simpa using hall _ hmem
          · rw [if_neg hx] at h
            cases h

/-- Converse: the last index satisfying `p` is what `rposition` returns. -/
theorem rposition_eq_some_of (p : SerialEntry → Bool) (l : List SerialEntry)
    (i : Nat) (hi : i < l.length) (hp : p (l.getD i default) = true)
    (hafter : ∀ j, i < j → j < l.length → p (l.getD j default) = false) :
    rposition p l = some i := by
  induction l generalizing i with
  | nil => simp at hi
  | cons x xs ih =>
      cases i with
      | zero =>
          have hxs : rposition p xs = none := by
            rw [rposition_eq_none_iff]
            intro y hy
            obtain ⟨⟨j, hj⟩, rfl⟩ := List.mem_iff_get.mp hy
            have : xs.getD j default = xs.get ⟨j, hj⟩ := by
              rw [List.getD_eq_getElem _ _ hj]
              simp
            rw [← this]
            simpa using hafter (j + 1) (by omega) (by simp; omega)
          simp only [rposition, hxs]
          rw [if_pos (by simpa using hp)]
      | succ k =>
          have hk : rposition p xs = some k := by
            refine ih k (by simp at hi; omega) (by simpa using hp) ?_
            intro j hj1 hj2
            simpa using hafter (j + 1) (by omega) (by simp; omega)
          simp [rposition, hk]

/-- C8: dropping a `FileSerial`'s last owner removes exactly one entry from
the registry — the last one whose weak reference has zero strong holders —
and leaves every other entry in place; when no expired entry exists it only
logs a diagnostic and completes. -/
theorem C8_drop_prunes_one_expired (list : List SerialEntry) :
    ((∃ e ∈ list, e.strong = 0) →
      ∃ index, index < list.length ∧
        (list.getD index default).strong = 0 ∧
        (∀ j, index < j → j < list.length →
          (list.getD j default).strong ≠ 0) ∧
        FileSerial.dropFromList list = (list.eraseIdx index, false) ∧
        list.eraseIdx index = list.take index ++ list.drop (index + 1) ∧
        (list.eraseIdx index).length + 1 = list.length) ∧
    ((∀ e ∈ list, e.strong ≠ 0) →
      FileSerial.dropFromList list = (list, true)) := by
  constructor
  · rintro ⟨e, hmem, hzero⟩
    cases hr : rposition (fun element => element.strong == 0) list with
    | none =>
        have hall := (rposition_eq_none_iff _ list).mp hr
        have := hall e hmem
        simp [hzero] at this
    | some index =>
        obtain ⟨h1, h2, h3⟩ := rposition_spec _ list index hr
        refine ⟨index, h1, by simpa using h2, ?_, ?_, ?_, ?_⟩
        · intro j hj1 hj2
          simpa using h3 j hj1 hj2
        · simp [FileSerial.dropFromList, hr]
        · exact List.eraseIdx_eq_take_drop_succ list index
        · rw [List.length_eraseIdx]
          simp [h1]
          omega
  · intro hall
    have hr : rposition (fun element => element.strong == 0) list = none := by
      rw [rposition_eq_none_iff]
      intro x hx
      simpa using hall x hx
    simp [FileSerial.dropFromList, hr]

/-- Witness for C8: a registry with one expired entry between two live
ones; the drop removes exactly that entry. -/
theorem C8_drop_prunes_one_expired_witness :
    (∃ e ∈ [SerialEntry.mk 1 2, SerialEntry.mk 2 0, SerialEntry.mk 3 1],
      e.strong = 0) ∧
    (∃ index,
      index < [SerialEntry.mk 1 2, SerialEntry.mk 2 0,
        SerialEntry.mk 3 1].length ∧
      ([SerialEntry.mk 1 2, SerialEntry.mk 2 0,
        SerialEntry.mk 3 1].getD index default).strong = 0 ∧
      (∀ j, index < j →
        j < [SerialEntry.mk 1 2, SerialEntry.mk 2 0,
          SerialEntry.mk 3 1].length →
        ([SerialEntry.mk 1 2, SerialEntry.mk 2 0,
          SerialEntry.mk 3 1].getD j default).strong ≠ 0) ∧
      FileSerial.dropFromList
          [SerialEntry.mk 1 2, SerialEntry.mk 2 0, SerialEntry.mk 3 1] =
        ([SerialEntry.mk 1 2, SerialEntry.mk 2 0,
          SerialEntry.mk 3 1].eraseIdx index, false) ∧
      [SerialEntry.mk 1 2, SerialEntry.mk 2 0,
          SerialEntry.mk 3 1].eraseIdx index =
        [SerialEntry.mk 1 2, SerialEntry.mk 2 0,
          SerialEntry.mk 3 1].take index ++
        [SerialEntry.mk 1 2, SerialEntry.mk 2 0,
          SerialEntry.mk 3 1].drop (index + 1) ∧
      ([SerialEntry.mk 1 2, SerialEntry.mk 2 0,
          SerialEntry.mk 3 1].eraseIdx index).length + 1 =
        [SerialEntry.mk 1 2, SerialEntry.mk 2 0,
          SerialEntry.mk 3 1].length) :=
  ⟨⟨SerialEntry.mk 2 0, by decide, rfl⟩,
   (C8_drop_prunes_one_expired
       [SerialEntry.mk 1 2, SerialEntry.mk 2 0, SerialEntry.mk 3 1]).1
     ⟨SerialEntry.mk 2 0, by decide, rfl⟩⟩

/-- Indexed elements are members. -/
theorem getD_mem (list : List SerialEntry) (i : Nat) (h : i < list.length) :
    list.getD i default ∈ list := by
  rw [List.getD_eq_getElem _ _ h]
  exact List.getElem_mem h

/-- The `getD` after `set` at the written index. -/
theorem getD_set_self (list : List SerialEntry) (i : Nat) (e : SerialEntry)
    (h : i < list.length) : (list.set i e).getD i default = e := by
  rw [List.getD_eq_getElem _ _ (by simpa using h)]
  exact List.getElem_set_self _

/-- The `getD` after `set` at another index. -/
theorem getD_set_ne (list : List SerialEntry) (i j : Nat) (e : SerialEntry)
    (hne : i ≠ j) : (list.set i e).getD j default = list.getD j default := by
  by_cases hj : j < list.length
  · rw [List.getD_eq_getElem _ _ (by simpa using hj),
      List.getD_eq_getElem _ _ hj]
    exact List.getElem_set_ne hne _
  · rw [List.getD_eq_default _ _ (by simpa using Nat.le_of_not_lt hj),
      List.getD_eq_default _ _ (Nat.le_of_not_lt hj)]

/-- Keys are unchanged by a `set` that preserves the slot's key. -/
theorem keysOf_set (list : List SerialEntry) (i : Nat) (e : SerialEntry)
    (hk : (list.getD i default).key = e.key) :
    keysOf (list.set i e) = keysOf list := by
  induction list generalizing i with
  | nil => simp [keysOf]
  | cons x xs ih =>
      cases i with
      | zero =>
          simp [keysOf] at hk ⊢
          exact hk.symm
      | succ i' =>
          simp [keysOf] at ih ⊢
          exact ih i' (by simpa using hk)

/-- Keys after `eraseIdx` are the erased key list. -/
theorem keysOf_eraseIdx (list : List SerialEntry) (i : Nat) :
    keysOf (list.eraseIdx i) = (keysOf list).eraseIdx i := by
  induction list generalizing i with
  | nil => simp [keysOf]
  | cons x xs ih =>
      cases i with
      | zero => simp [keysOf]
      | succ i' => simp [keysOf, List.eraseIdx] at ih ⊢; exact ih i'

/-- Membership in an erased list comes from a surviving index. -/
theorem mem_eraseIdx_getD (list : List SerialEntry) (i : Nat)
    (e : SerialEntry) (h : e ∈ list.eraseIdx i) :
    ∃ j, j < list.length ∧ j ≠ i ∧ list.getD j default = e := by
  induction list generalizing i with
  | nil => simp [List.eraseIdx] at h
  | cons x xs ih =>
      cases i with
      | zero =>
          simp only [List.eraseIdx] at h
          obtain ⟨⟨j, hj⟩, rfl⟩ := List.mem_iff_get.mp h
          refine ⟨j + 1, by simp; omega, by omega, ?_⟩
          rw [List.getD_eq_getElem _ _ (by simp; omega)]
          simp [List.get_eq_getElem]
      | succ i' =>
          simp only [List.eraseIdx] at h
          rcases List.mem_cons.mp h with rfl | h'
          · exact ⟨0, by simp, by omega, rfl⟩
          · obtain ⟨j, hj, hne, hget⟩ := ih i' h'
            refine ⟨j + 1, by simp; omega, by omega, ?_⟩
            simpa using hget

@[simp]
theorem strongOf_nil (key : Nat) : strongOf key [] = 0 := rfl

@[simp]
theorem strongOf_cons (key : Nat) (e : SerialEntry) (l : List SerialEntry) :
    strongOf key (e :: l) =
      (if e.key = key then e.strong else 0) + strongOf key l := by
  simp [strongOf]

/-- The `strongOf` only depends on the multiset of slots. -/
theorem strongOf_perm (key : Nat) (l1 l2 : List SerialEntry)
    (h : l1.Perm l2) : strongOf key l1 = strongOf key l2 :=
  (h.map _).sum_eq

/-- The `strongOf` over an append. -/
theorem strongOf_append (key : Nat) (l1 l2 : List SerialEntry) :
    strongOf key (l1 ++ l2) = strongOf key l1 + strongOf key l2 := by
  induction l1 with
  | nil => simp
  | cons x xs ih => simp [ih]; omega

/-- Exchange law for `strongOf` under `set`, in addition form. -/
theorem strongOf_set (key : Nat) (list : List SerialEntry) (i : Nat)
    (e : SerialEntry) (h : i < list.length) :
    (if e.key = key then e.strong else 0) + strongOf key list =
      strongOf key (list.set i e) +
        (if (list.getD i default).key = key
          then (list.getD i default).strong else 0) := by
  induction list generalizing i with
  | nil => simp at h
  | cons x xs ih =>
      cases i with
      | zero => simp; omega
      | succ i' =>
          have := ih i' (by simpa using h)
          simp only [List.set, strongOf_cons, List.getD_cons_succ]
          omega

/-- Exchange law for `strongOf` under `eraseIdx`, in addition form. -/
theorem strongOf_eraseIdx (key : Nat) (list : List SerialEntry) (i : Nat)
    (h : i < list.length) :
    strongOf key (list.eraseIdx i) +
        (if (list.getD i default).key = key
          then (list.getD i default).strong else 0) =
      strongOf key list := by
  induction list generalizing i with
  | nil => simp at h
  | cons x xs ih =>
      cases i with
      | zero =>
          simp [List.eraseIdx]
          omega
      | succ i' =>
          have := ih i' (by simpa using h)
          simp only [List.eraseIdx, strongOf_cons, List.getD_cons_succ]
          omega

/-- Strictly sorted keys are monotone in the index. -/
theorem keys_mono (list : List SerialEntry)
    (hsorted : (keysOf list).Pairwise (· < ·)) (i j : Nat) (hij : i < j)
    (hj : j < list.length) :
    (list.getD i default).key < (list.getD j default).key := by
  have hlen : (keysOf list).length = list.length := by simp [keysOf]
  have hkey := List.pairwise_iff_get.mp hsorted
    ⟨i, by omega⟩ ⟨j, by omega⟩ (by simpa using hij)
  rw [List.getD_eq_getElem list default (show i < list.length by omega),
    List.getD_eq_getElem list default hj]
  simpa [keysOf, List.get_eq_getElem] using hkey

/-- Soundness of the embedded `binary_search_by` loop: an `Ok(index)`
points inside the list at a live slot holding exactly the probed key. -/
theorem bsGo_ok_mem (key : Nat) (list : List SerialEntry) :
    ∀ n left right index, right - left ≤ n → right ≤ list.length →
      rustBinarySearchGo (serialProbe key) list left right = .ok index →
      index < list.length ∧ (list.getD index default).key = key ∧
        (list.getD index default).strong ≠ 0 := by
  intro n
  induction n with
  | zero =>
      intro left right index hn hr h
      rw [rustBinarySearchGo, dif_neg (by omega)] at h
      cases h
  | succ n ih =>
      intro left right index hn hr h
      by_cases hlr : left < right
      · rw [rustBinarySearchGo, dif_pos hlr] at h
        split at h
        · rename_i hprobe
          have hrfl : left + (right - left) / 2 = index := by
            cases h
            rfl
          rw [hrfl] at hprobe
          have hmid : index < list.length := by omega
          unfold serialProbe at hprobe
          by_cases hz : (list.getD index default).strong = 0
          · rw [if_pos hz] at hprobe
            cases hprobe
          · rw [if_neg hz] at hprobe
            exact ⟨hmid, Nat.compare_eq_eq.mp hprobe, hz⟩
        · exact ih (left + (right - left) / 2 + 1) right index (by omega) hr h
        · exact ih left (left + (right - left) / 2) index (by omega)
            (by omega) h
      · rw [rustBinarySearchGo, dif_neg hlr] at h
        cases h

/-- Completeness of the embedded `binary_search_by` loop on a strictly
sorted, all-live registry slice: when the search range covers an index
holding the probed key, the search succeeds. -/
theorem bsGo_finds (key : Nat) (list : List SerialEntry)
    (hsorted : (keysOf list).Pairwise (· < ·))
    (hlive : ∀ e ∈ list, e.strong ≠ 0) :
    ∀ n left right j, right - left ≤ n → right ≤ list.length →
      left ≤ j → j < right → (list.getD j default).key = key →
      ∃ index,
        rustBinarySearchGo (serialProbe key) list left right = .ok index := by
  intro n
  induction n with
  | zero =>
      intro left right j hn hr hlj hjr hjk
      omega
  | succ n ih =>
      intro left right j hn hr hlj hjr hjk
      have hlr : left < right := by omega
      have hmidlt : left + (right - left) / 2 < list.length := by omega
      have hmidlive :
          (list.getD (left + (right - left) / 2) default).strong ≠ 0 :=
        hlive _ (getD_mem list _ hmidlt)
      cases hcmp :
        compare (list.getD (left + (right - left) / 2) default).key key with
      | eq =>
          have hprobe : serialProbe key
              (list.getD (left + (right - left) / 2) default) =
                Ordering.eq := by
            unfold serialProbe
            rw [if_neg hmidlive]
            exact hcmp
          refine ⟨left + (right - left) / 2, ?_⟩
          rw [rustBinarySearchGo, dif_pos hlr, hprobe]
      | lt =>
          have hmk : (list.getD (left + (right - left) / 2) default).key <
              key := Nat.compare_eq_lt.mp hcmp
          have hjgt : left + (right - left) / 2 < j := by
            rcases Nat.lt_trichotomy j (left + (right - left) / 2) with
              h1 | h1 | h1
            · have h2 := keys_mono list hsorted j _ h1 hmidlt
              rw [hjk] at h2
              omega
            · rw [← h1] at hmk
              rw [hjk] at hmk
              omega
            · exact h1
          obtain ⟨index, hindex⟩ := ih (left + (right - left) / 2 + 1) right j
            (by omega) hr (by omega) hjr hjk
          have hprobe : serialProbe key
              (list.getD (left + (right - left) / 2) default) =
                Ordering.lt := by
            unfold serialProbe
            rw [if_neg hmidlive]
            exact hcmp
          refine ⟨index, ?_⟩
          rw [rustBinarySearchGo, dif_pos hlr, hprobe]
          exact hindex
      | gt =>
          have hmk : key <
              (list.getD (left + (right - left) / 2) default).key :=
            Nat.compare_eq_gt.mp hcmp
          have hjlt : j < left + (right - left) / 2 := by
            rcases Nat.lt_trichotomy j (left + (right - left) / 2) with
              h1 | h1 | h1
            · exact h1
            · rw [← h1] at hmk
              rw [hjk] at hmk
              omega
            · have h2 := keys_mono list hsorted _ j h1 (by omega)
              rw [hjk] at h2
              omega
          obtain ⟨index, hindex⟩ := ih left (left + (right - left) / 2) j
            (by omega) (by omega) hlj hjlt hjk
          have hprobe : serialProbe key
              (list.getD (left + (right - left) / 2) default) =
                Ordering.gt := by
            unfold serialProbe
            rw [if_neg hmidlive]
            exact hcmp
          refine ⟨index, ?_⟩
          rw [rustBinarySearchGo, dif_pos hlr, hprobe]
          exact hindex

/-- On a strictly sorted all-live registry, `find_existing_serial` finds
the slot of any key that is present. -/
theorem find_existing_serial_of_mem (list : List SerialEntry) (key : Nat)
    (hsorted : (keysOf list).Pairwise (· < ·))
    (hlive : ∀ e ∈ list, e.strong ≠ 0) (j : Nat) (hj : j < list.length)
    (hjk : (list.getD j default).key = key) :
    ∃ index, find_existing_serial list key = some index ∧
      index < list.length ∧ (list.getD index default).key = key := by
  obtain ⟨index, hindex⟩ := bsGo_finds key list hsorted hlive list.length 0
    list.length j (by omega) (Nat.le_refl _) (by omega) hj hjk
  obtain ⟨h1, h2, h3⟩ := bsGo_ok_mem key list list.length 0 list.length index
    (by omega) (Nat.le_refl _) hindex
  refine ⟨index, ?_, h1, h2⟩
  unfold find_existing_serial rustBinarySearchBy
  rw [hindex]
  exact if_pos h3

/-- The `find_existing_serial` returns nothing when no slot has the key. -/
theorem find_existing_serial_of_not_mem (list : List SerialEntry) (key : Nat)
    (hnot : ∀ e ∈ list, e.key ≠ key) :
    find_existing_serial list key = none := by
  unfold find_existing_serial rustBinarySearchBy
  cases hbs : rustBinarySearchGo (serialProbe key) list 0 list.length with
  | error _ => rfl
  | ok index =>
      obtain ⟨h1, h2, _⟩ := bsGo_ok_mem key list list.length 0 list.length
        index (by omega) (Nat.le_refl _) hbs
      exact absurd h2 (hnot _ (getD_mem list index h1))

/-- The model sort only permutes the slots. -/
theorem sortSerials_perm (l : List SerialEntry) :
    (sortSerials l).Perm l :=
  List.perm_insertionSort _ l

/-- A `serialLE`-sorted, all-live list with nodup keys has strictly
increasing keys. -/
theorem pairwise_keys_lt_of_sorted (l : List SerialEntry)
    (hle : l.Pairwise serialLE) (hlive : ∀ e ∈ l, e.strong ≠ 0)
    (hnd : (keysOf l).Nodup) : (keysOf l).Pairwise (· < ·) := by
  unfold keysOf
  rw [List.pairwise_map]
  unfold keysOf List.Nodup at hnd
  rw [List.pairwise_map] at hnd
  have hcomb := hle.and hnd
  refine List.Pairwise.imp_of_mem ?_ hcomb
  intro a b ha hb hab
  obtain ⟨hab1, hab2⟩ := hab
  have ha' := hlive a ha
  have hb' := hlive b hb
  unfold serialLE serialCompare at hab1
  rw [if_neg ha', if_neg hb'] at hab1
  rw [Ne, Nat.compare_eq_gt] at hab1
  omega

/-- Inserting a fresh key via push-and-sort preserves the registry
invariant. -/
theorem RegInv_insert (list : List SerialEntry) (key : Nat)
    (hinv : RegInv list) (hfresh : ∀ e ∈ list, e.key ≠ key) :
    RegInv (sortSerials (list ++ [{ key := key, strong := 1 }])) := by
  obtain ⟨hsorted, hlive⟩ := hinv
  have hperm := sortSerials_perm (list ++ [{ key := key, strong := 1 }])
  have hlive' : ∀ e ∈ sortSerials (list ++ [{ key := key, strong := 1 }]),
      e.strong ≠ 0 := by
    intro e he
    have hm : e ∈ list ++ [{ key := key, strong := 1 }] := hperm.subset he
    rcases List.mem_append.mp hm with h | h
    · exact hlive e h
    · simp at h
      simp [h]
  refine ⟨?_, hlive'⟩
  have hps : (sortSerials (list ++ [{ key := key, strong := 1 }])).Pairwise
      serialLE := List.sorted_insertionSort serialLE _
  have happ : keysOf (list ++ [{ key := key, strong := 1 }]) =
      keysOf list ++ [key] := by simp [keysOf]
  have hnd0 : (keysOf list).Nodup :=
    hsorted.imp (fun hab => Nat.ne_of_lt hab)
  have hknotin : key ∉ keysOf list := by
    intro hk
    obtain ⟨e, he, hek⟩ := List.mem_map.mp hk
    exact hfresh e he hek
  have h1 : (keysOf (list ++ [{ key := key, strong := 1 }])).Nodup := by
    rw [happ]
    simp [List.nodup_append, hnd0, hknotin]
  have hnd : (keysOf
      (sortSerials (list ++ [{ key := key, strong := 1 }]))).Nodup :=
    ((hperm.map SerialEntry.key).nodup_iff).mpr h1
  exact pairwise_keys_lt_of_sorted _ hps hlive' hnd

/-- The `isLive` is the existence of an in-range slot with the key (on an
all-live registry). -/
theorem isLive_iff_exists (list : List SerialEntry) (key : Nat)
    (hlive : ∀ e ∈ list, e.strong ≠ 0) :
    isLive list key = true ↔
      ∃ j, j < list.length ∧ (list.getD j default).key = key := by
  unfold isLive
  rw [List.any_eq_true]
  constructor
  · rintro ⟨e, he, hp⟩
    obtain ⟨⟨j, hj⟩, rfl⟩ := List.mem_iff_get.mp he
    refine ⟨j, hj, ?_⟩
    rw [List.getD_eq_getElem _ _ hj]
    simp only [Bool.and_eq_true, beq_iff_eq] at hp
    simpa [List.get_eq_getElem] using hp.1
  · rintro ⟨j, hj, hjk⟩
    have hmem := getD_mem list j hj
    refine ⟨list.getD j default, hmem, ?_⟩
    simp only [Bool.and_eq_true, beq_iff_eq, bne_iff_ne]
    exact ⟨hjk, hlive _ hmem⟩

/-- What `liveIdx` guarantees about the returned slot. -/
theorem liveIdx_spec (list : List SerialEntry) (key index : Nat)
    (h : liveIdx list key = some index) :
    index < list.length ∧ (list.getD index default).key = key ∧
      (list.getD index default).strong ≠ 0 := by
  unfold liveIdx at h
  induction list generalizing index with
  | nil => simp at h
  | cons x xs ih =>
      rw [List.findIdx?_cons] at h
      by_cases hx : (x.key == key && x.strong != 0) = true
      · rw [if_pos hx] at h
        cases h
        simp only [Bool.and_eq_true, beq_iff_eq, bne_iff_ne] at hx
        exact ⟨by simp, by simpa using hx.1, by simpa using hx.2⟩
      · rw [if_neg hx, List.findIdx?_succ] at h
        obtain ⟨i', hi', rfl⟩ := Option.map_eq_some'.mp h
        obtain ⟨h1, h2, h3⟩ := ih i' hi'
        exact ⟨by simp; omega, by simpa using h2, by simpa using h3⟩

/-- A live key always has a slot index. -/
theorem liveIdx_isSome_of_isLive (list : List SerialEntry) (key : Nat)
    (h : isLive list key = true) :
    ∃ index, liveIdx list key = some index := by
  unfold isLive at h
  unfold liveIdx
  induction list with
  | nil => simp at h
  | cons x xs ih =>
      rw [List.findIdx?_cons]
      by_cases hx : (x.key == key && x.strong != 0) = true
      · rw [if_pos hx]
        exact ⟨0, rfl⟩
      · rw [if_neg hx]
        have h' : xs.any (fun e => e.key == key && e.strong != 0) = true := by
          rw [List.any_cons] at h
          rcases Bool.or_eq_true_iff.mp h with h | h
          · exact absurd h hx
          · exact h
        obtain ⟨i, hi⟩ := ih h'
        refine ⟨i + 1, ?_⟩
        rw [List.findIdx?_succ, hi]
        rfl

/-- One `FileSerial::find` step: the invariant is preserved, the strong
count of the requested key rises by one, other keys are untouched, and
when a live serial for the key already exists, `find` returns a shared
handle to exactly that slot and creates nothing. -/
theorem find_step (list : List SerialEntry) (key : Nat) (hinv : RegInv list) :
    RegInv (FileSerial.find list key).2 ∧
    strongOf key (FileSerial.find list key).2 = strongOf key list + 1 ∧
    (∀ k, k ≠ key →
      strongOf k (FileSerial.find list key).2 = strongOf k list) ∧
    (isLive list key = true →
      ∃ index, index < list.length ∧
        (list.getD index default).key = key ∧
        FileSerial.find list key =
          (.existing index, list.set index
            { key := key,
              strong := (list.getD index default).strong + 1 })) := by
  obtain ⟨hsorted, hlive⟩ := hinv
  by_cases hex : ∃ j, j < list.length ∧ (list.getD j default).key = key
  · obtain ⟨j, hj, hjk⟩ := hex
    obtain ⟨index, hfes, h1, h2⟩ :=
      find_existing_serial_of_mem list key hsorted hlive j hj hjk
    have hfind : FileSerial.find list key =
        (.existing index, list.set index
          { key := (list.getD index default).key,
            strong := (list.getD index default).strong + 1 }) := by
      unfold FileSerial.find
      rw [hfes]
    have hsnd : (FileSerial.find list key).2 = list.set index
        { key := (list.getD index default).key,
          strong := (list.getD index default).strong + 1 } := by
      rw [hfind]
    have hkeys : keysOf (list.set index
        { key := (list.getD index default).key,
          strong := (list.getD index default).strong + 1 }) = keysOf list :=
      keysOf_set list index _ rfl
    have hliveS : ∀ e ∈ list.set index
        { key := (list.getD index default).key,
          strong := (list.getD index default).strong + 1 }, e.strong ≠ 0 := by
      intro e he
      rcases List.mem_or_eq_of_mem_set he with h | h
      · exact hlive e h
      · simp [h]
    refine ⟨?_, ?_, ?_, ?_⟩
    · rw [hsnd]
      exact ⟨by rw [hkeys]; exact hsorted, hliveS⟩
    · rw [hsnd]
      have hset :
          (if (list.getD index default).key = key
            then (list.getD index default).strong + 1 else 0) +
            strongOf key list =
          strongOf key (list.set index
            { key := (list.getD index default).key,
              strong := (list.getD index default).strong + 1 }) +
            (if (list.getD index default).key = key
              then (list.getD index default).strong else 0) :=
        strongOf_set key list index
          { key := (list.getD index default).key,
            strong := (list.getD index default).strong + 1 } h1
      rw [if_pos h2] at hset
      rw [if_pos h2] at hset
      omega
    · intro k hk
      rw [hsnd]
      have hco : (list.getD index default).key ≠ k := by
        rw [h2]
        exact Ne.symm hk
      have hset :
          (if (list.getD index default).key = k
            then (list.getD index default).strong + 1 else 0) +
            strongOf k list =
          strongOf k (list.set index
            { key := (list.getD index default).key,
              strong := (list.getD index default).strong + 1 }) +
            (if (list.getD index default).key = k
              then (list.getD index default).strong else 0) :=
        strongOf_set k list index
          { key := (list.getD index default).key,
            strong := (list.getD index default).strong + 1 } h1
      rw [if_neg hco] at hset
      rw [if_neg hco] at hset
      omega
    · intro _
      refine ⟨index, h1, h2, ?_⟩
      rw [hfind, h2]
  · have hfresh : ∀ e ∈ list, e.key ≠ key := by
      intro e he hk
      obtain ⟨⟨j, hj⟩, rfl⟩ := List.mem_iff_get.mp he
      refine hex ⟨j, hj, ?_⟩
      rw [List.getD_eq_getElem _ _ hj]
      simpa [List.get_eq_getElem] using hk
    have hfes := find_existing_serial_of_not_mem list key hfresh
    have hfind : FileSerial.find list key =
        (.created, sortSerials (list ++ [{ key := key, strong := 1 }])) := by
      unfold FileSerial.find
      rw [hfes]
    have hsnd : (FileSerial.find list key).2 =
        sortSerials (list ++ [{ key := key, strong := 1 }]) := by
      rw [hfind]
    have hperm := sortSerials_perm (list ++ [{ key := key, strong := 1 }])
    refine ⟨?_, ?_, ?_, ?_⟩
    · rw [hsnd]
      exact RegInv_insert list key ⟨hsorted, hlive⟩ hfresh
    · rw [hsnd]
      rw [strongOf_perm key _ _ hperm, strongOf_append]
      simp
    · intro k hk
      rw [hsnd]
      rw [strongOf_perm k _ _ hperm, strongOf_append]
      simp [Ne.symm hk]
    · intro hl
      exact absurd ((isLive_iff_exists list key hlive).mp hl) hex

/-- One handle-drop step: the invariant is preserved, the strong count of
the dropped key falls by one, other keys are untouched. -/
theorem drop_step (list : List SerialEntry) (key : Nat) (hinv : RegInv list)
    (hl : isLive list key = true) :
    RegInv (applyOp list (.drop key)) ∧
    strongOf key (applyOp list (.drop key)) + 1 = strongOf key list ∧
    (∀ k, k ≠ key →
      strongOf k (applyOp list (.drop key)) = strongOf k list) := by
  obtain ⟨hsorted, hlive⟩ := hinv
  obtain ⟨index, hidx⟩ := liveIdx_isSome_of_isLive list key hl
  obtain ⟨h1, h2, h3⟩ := liveIdx_spec list key index hidx
  have happly : applyOp list (.drop key) = dropHandle list index := by
    show (match liveIdx list key with
          | some index => dropHandle list index
          | none => list) = dropHandle list index
    rw [hidx]
  rw [happly]
  by_cases hone : (list.getD index default).strong ≤ 1
  · have hstrong1 : (list.getD index default).strong = 1 := by omega
    have hdrop : dropHandle list index =
        (FileSerial.dropFromList (list.set index
          { key := (list.getD index default).key, strong := 0 })).1 := by
      unfold dropHandle
      rw [if_pos hone]
    have hat : (list.set index
        { key := (list.getD index default).key, strong := 0 }).getD index
          default = { key := (list.getD index default).key, strong := 0 } :=
      getD_set_self _ _ _ h1
    have hothers : ∀ j, j < list.length → j ≠ index →
        ((list.set index
          { key := (list.getD index default).key, strong := 0 }).getD j
            default).strong ≠ 0 := by
      intro j hj hne
      rw [getD_set_ne _ _ _ _ (Ne.symm hne)]
      exact hlive _ (getD_mem list j hj)
    have hrp : rposition (fun element => element.strong == 0)
        (list.set index
          { key := (list.getD index default).key, strong := 0 }) =
          some index := by
      apply rposition_eq_some_of
      · simp
        omega
      · rw [hat]
        rfl
      · intro j hj1 hj2
        have hj2' : j < list.length := by
          simp at hj2
          omega
        have := hothers j hj2' (by omega)
        simpa using this
    have hresult : dropHandle list index =
        (list.set index
          { key := (list.getD index default).key, strong := 0 }).eraseIdx
            index := by
      rw [hdrop]
      unfold FileSerial.dropFromList
      rw [hrp]
    rw [hresult]
    have hkeys : keysOf (list.set index
        { key := (list.getD index default).key, strong := 0 }) =
          keysOf list := keysOf_set list index _ rfl
    have hlen1 : index < (list.set index
        { key := (list.getD index default).key, strong := 0 }).length := by
      simp
      omega
    refine ⟨⟨?_, ?_⟩, ?_, ?_⟩
    · rw [keysOf_eraseIdx, hkeys]
      exact hsorted.sublist (List.eraseIdx_sublist _ _)
    · intro e he
      obtain ⟨j, hj, hne, hget⟩ := mem_eraseIdx_getD _ _ _ he
      rw [← hget]
      exact hothers j (by simpa using hj) hne
    · have herase :
          strongOf key ((list.set index
            { key := (list.getD index default).key, strong := 0 }).eraseIdx
              index) +
            (if ((list.set index
              { key := (list.getD index default).key, strong := 0 }).getD
                index default).key = key
              then ((list.set index
                { key := (list.getD index default).key, strong := 0 }).getD
                  index default).strong else 0) =
          strongOf key (list.set index
            { key := (list.getD index default).key, strong := 0 }) :=
        strongOf_eraseIdx key _ index hlen1
      rw [hat] at herase
      have herase' :
          strongOf key ((list.set index
            { key := (list.getD index default).key, strong := 0 }).eraseIdx
              index) +
            (if (list.getD index default).key = key then 0 else 0) =
          strongOf key (list.set index
            { key := (list.getD index default).key, strong := 0 }) := herase
      rw [ite_self] at herase'
      have hset :
          (if (list.getD index default).key = key then 0 else 0) +
            strongOf key list =
          strongOf key (list.set index
            { key := (list.getD index default).key, strong := 0 }) +
            (if (list.getD index default).key = key
              then (list.getD index default).strong else 0) :=
        strongOf_set key list index
          { key := (list.getD index default).key, strong := 0 } h1
      rw [ite_self, if_pos h2, hstrong1] at hset
      omega
    · intro k hk
      have herase :
          strongOf k ((list.set index
            { key := (list.getD index default).key, strong := 0 }).eraseIdx
              index) +
            (if ((list.set index
              { key := (list.getD index default).key, strong := 0 }).getD
                index default).key = k
              then ((list.set index
                { key := (list.getD index default).key, strong := 0 }).getD
                  index default).strong else 0) =
          strongOf k (list.set index
            { key := (list.getD index default).key, strong := 0 }) :=
        strongOf_eraseIdx k _ index hlen1
      rw [hat] at herase
      have herase' :
          strongOf k ((list.set index
            { key := (list.getD index default).key, strong := 0 }).eraseIdx
              index) +
            (if (list.getD index default).key = k then 0 else 0) =
          strongOf k (list.set index
            { key := (list.getD index default).key, strong := 0 }) := herase
      rw [ite_self] at herase'
      have hco : (list.getD index default).key ≠ k := by
        rw [h2]
        exact Ne.symm hk
      have hset :
          (if (list.getD index default).key = k then 0 else 0) +
            strongOf k list =
          strongOf k (list.set index
            { key := (list.getD index default).key, strong := 0 }) +
            (if (list.getD index default).key = k
              then (list.getD index default).strong else 0) :=
        strongOf_set k list index
          { key := (list.getD index default).key, strong := 0 } h1
      rw [ite_self, if_neg hco] at hset
      omega
  · have hdrop : dropHandle list index = list.set index
        { key := (list.getD index default).key,
          strong := (list.getD index default).strong - 1 } := by
      unfold dropHandle
      rw [if_neg hone]
    rw [hdrop]
    have hkeys : keysOf (list.set index
        { key := (list.getD index default).key,
          strong := (list.getD index default).strong - 1 }) = keysOf list :=
      keysOf_set list index _ rfl
    refine ⟨⟨by rw [hkeys]; exact hsorted, ?_⟩, ?_, ?_⟩
    · intro e he
      rcases List.mem_or_eq_of_mem_set he with h | h
      · exact hlive e h
      · rw [h]
        show (list.getD index default).strong - 1 ≠ 0
        omega
    · have hset :
          (if (list.getD index default).key = key
            then (list.getD index default).strong - 1 else 0) +
            strongOf key list =
          strongOf key (list.set index
            { key := (list.getD index default).key,
              strong := (list.getD index default).strong - 1 }) +
            (if (list.getD index default).key = key
              then (list.getD index default).strong else 0) :=
        strongOf_set key list index
          { key := (list.getD index default).key,
            strong := (list.getD index default).strong - 1 } h1
      rw [if_pos h2] at hset
      rw [if_pos h2] at hset
      omega
    · intro k hk
      have hco : (list.getD index default).key ≠ k := by
        rw [h2]
        exact Ne.symm hk
      have hset :
          (if (list.getD index default).key = k
            then (list.getD index default).strong - 1 else 0) +
            strongOf k list =
          strongOf k (list.set index
            { key := (list.getD index default).key,
              strong := (list.getD index default).strong - 1 }) +
            (if (list.getD index default).key = k
              then (list.getD index default).strong else 0) :=
        strongOf_set k list index
          { key := (list.getD index default).key,
            strong := (list.getD index default).strong - 1 } h1
      rw [if_neg hco] at hset
      rw [if_neg hco] at hset
      omega

/-- The `countFind` over a cons. -/
theorem countFind_cons (k : Nat) (op : RegOp) (rest : List RegOp) :
    countFind k (op :: rest) =
      countFind k rest + (if op = RegOp.find k then 1 else 0) := by
  unfold countFind
  rw [List.countP_cons]
  congr 1
  by_cases h : op = RegOp.find k <;> simp [h]

/-- The `countDrop` over a cons. -/
theorem countDrop_cons (k : Nat) (op : RegOp) (rest : List RegOp) :
    countDrop k (op :: rest) =
      countDrop k rest + (if op = RegOp.drop k then 1 else 0) := by
  unfold countDrop
  rw [List.countP_cons]
  congr 1
  by_cases h : op = RegOp.drop k <;> simp [h]

/-- Executing a valid trace preserves the registry invariant, and the
strong count of each key moves by exactly the number of `find`s minus the
number of drops. -/
theorem exec_step_inv (ops : List RegOp) :
    ∀ list, RegInv list → validFrom list ops = true →
      RegInv (execTrace list ops) ∧
      (∀ k, strongOf k (execTrace list ops) + countDrop k ops =
        strongOf k list + countFind k ops) := by
  induction ops with
  | nil =>
      intro list hinv _
      exact ⟨hinv, fun k => by simp [execTrace, countDrop, countFind]⟩
  | cons op rest ih =>
      intro list hinv hv
      have hexec : execTrace list (op :: rest) =
          execTrace (applyOp list op) rest := rfl
      cases op with
      | find key =>
          have hv2 : validFrom (applyOp list (.find key)) rest = true := by
            rw [validFrom] at hv
            simpa using hv
          have hstep := find_step list key hinv
          have happ : applyOp list (.find key) =
              (FileSerial.find list key).2 := rfl
          obtain ⟨hinv2, hcnt⟩ := ih (applyOp list (.find key))
            (by rw [happ]; exact hstep.1) hv2
          refine ⟨by rw [hexec]; exact hinv2, ?_⟩
          intro k
          have hk := hcnt k
          rw [hexec, happ, countFind_cons, countDrop_cons]
          rw [happ] at hk
          rw [if_neg (show ¬ (RegOp.find key = RegOp.drop k) from
            fun hc => by cases hc)]
          by_cases hkey : k = key
          · subst hkey
            rw [hstep.2.1] at hk
            rw [if_pos rfl]
            omega
          · rw [hstep.2.2.1 k hkey] at hk
            rw [if_neg (show ¬ (RegOp.find key = RegOp.find k) from
              fun hc => by injection hc with h; exact hkey h.symm)]
            omega
      | drop key =>
          have hvparts : isLive list key = true ∧
              validFrom (applyOp list (.drop key)) rest = true := by
            rw [validFrom] at hv
            simpa using hv
          have hstep := drop_step list key hinv hvparts.1
          obtain ⟨hinv2, hcnt⟩ := ih (applyOp list (.drop key)) hstep.1
            hvparts.2
          refine ⟨by rw [hexec]; exact hinv2, ?_⟩
          intro k
          have hk := hcnt k
          rw [hexec, countFind_cons, countDrop_cons]
          rw [if_neg (show ¬ (RegOp.drop key = RegOp.find k) from
            fun hc => by cases hc)]
          by_cases hkey : k = key
          · subst hkey
            have hd := hstep.2.1
            rw [if_pos rfl]
            omega
          · rw [hstep.2.2 k hkey] at hk
            rw [if_neg (show ¬ (RegOp.drop key = RegOp.drop k) from
              fun hc => by injection hc with h; exact hkey h.symm)]
            omega

/-- C1: for every valid interleaving of `FileSerial::find` calls and
handle drops, the registry holds at most one live `FileSerial` per
distinct key; every `find` for a key with a live serial returns a shared
handle to that same slot — incrementing its strong count, creating no
second instance — and each serial's strong count equals the number of
currently live holders returned by `find` (finds minus drops). -/
theorem C1_registry_at_most_one_serial_per_key (ops : List RegOp)
    (hv : validFrom [] ops = true) :
    (∀ k, (keysOf (execTrace [] ops)).count k ≤ 1) ∧
    (∀ k, strongOf k (execTrace [] ops) + countDrop k ops =
      countFind k ops) ∧
    (∀ k, isLive (execTrace [] ops) k = true →
      ∃ index, index < (execTrace [] ops).length ∧
        ((execTrace [] ops).getD index default).key = k ∧
        FileSerial.find (execTrace [] ops) k =
          (.existing index, (execTrace [] ops).set index
            { key := k,
              strong :=
                ((execTrace [] ops).getD index default).strong + 1 })) := by
  have hinv0 : RegInv [] := ⟨by simp [keysOf], by simp⟩
  obtain ⟨hinv, hcount⟩ := exec_step_inv ops [] hinv0 hv
  refine ⟨?_, ?_, ?_⟩
  · intro k
    have hnd : (keysOf (execTrace [] ops)).Nodup :=
      hinv.1.imp (fun h => Nat.ne_of_lt h)
    exact List.nodup_iff_count_le_one.mp hnd k
  · intro k
    have hk := hcount k
    simpa using hk
  · intro k hl
    exact (find_step (execTrace [] ops) k hinv).2.2.2 hl

/-- Witness for C1: the trace find 5, find 5, find 3, drop 5, drop 3,
drop 5 is valid — two live handles for key 5 and one for key 3 at the
peak — and the registry theorem applies to it. -/
theorem C1_registry_at_most_one_serial_per_key_witness :
    validFrom [] [RegOp.find 5, RegOp.find 5, RegOp.find 3, RegOp.drop 5,
        RegOp.drop 3, RegOp.drop 5] = true ∧
    ((∀ k, (keysOf (execTrace [] [RegOp.find 5, RegOp.find 5, RegOp.find 3,
        RegOp.drop 5, RegOp.drop 3, RegOp.drop 5])).count k ≤ 1) ∧
    (∀ k, strongOf k (execTrace [] [RegOp.find 5, RegOp.find 5, RegOp.find 3,
        RegOp.drop 5, RegOp.drop 3, RegOp.drop 5]) +
      countDrop k [RegOp.find 5, RegOp.find 5, RegOp.find 3, RegOp.drop 5,
        RegOp.drop 3, RegOp.drop 5] =
      countFind k [RegOp.find 5, RegOp.find 5, RegOp.find 3, RegOp.drop 5,
        RegOp.drop 3, RegOp.drop 5]) ∧
    (∀ k, isLive (execTrace [] [RegOp.find 5, RegOp.find 5, RegOp.find 3,
        RegOp.drop 5, RegOp.drop 3, RegOp.drop 5]) k = true →
      ∃ index, index < (execTrace [] [RegOp.find 5, RegOp.find 5,
        RegOp.find 3, RegOp.drop 5, RegOp.drop 3, RegOp.drop 5]).length ∧
        ((execTrace [] [RegOp.find 5, RegOp.find 5, RegOp.find 3,
          RegOp.drop 5, RegOp.drop 3, RegOp.drop 5]).getD index
            default).key = k ∧
        FileSerial.find (execTrace [] [RegOp.find 5, RegOp.find 5,
          RegOp.find 3, RegOp.drop 5, RegOp.drop 3, RegOp.drop 5]) k =
          (.existing index, (execTrace [] [RegOp.find 5, RegOp.find 5,
            RegOp.find 3, RegOp.drop 5, RegOp.drop 3,
            RegOp.drop 5]).set index
            { key := k,
              strong := ((execTrace [] [RegOp.find 5, RegOp.find 5,
                RegOp.find 3, RegOp.drop 5, RegOp.drop 3,
                RegOp.drop 5]).getD index default).strong + 1 }))) := by
  have hbs1 : rustBinarySearchBy (serialProbe 5) [] = .error 0 := by
    rw [rustBinarySearchBy, rustBinarySearchGo]
    rfl
  have hbs2 : rustBinarySearchBy (serialProbe 5)
      [{ key := 5, strong := 1 }] = .ok 0 := by
    rw [rustBinarySearchBy, rustBinarySearchGo]
    rfl
  have hbs3 : rustBinarySearchBy (serialProbe 3)
      [{ key := 5, strong := 2 }] = .error 0 := by
    have hgo0 : rustBinarySearchGo (serialProbe 3)
        [{ key := 5, strong := 2 }] 0 0 = .error 0 := by
      rw [rustBinarySearchGo]
      rfl
    rw [rustBinarySearchBy, rustBinarySearchGo]
    exact hgo0
  have hfes1 : find_existing_serial [] 5 = none := by
    unfold find_existing_serial
    rw [hbs1]
  have hfes2 : find_existing_serial [{ key := 5, strong := 1 }] 5 =
      some 0 := by
    unfold find_existing_serial
    rw [hbs2]
    rfl
  have hfes3 : find_existing_serial [{ key := 5, strong := 2 }] 3 =
      none := by
    unfold find_existing_serial
    rw [hbs3]
  have e1 : applyOp [] (RegOp.find 5) = [{ key := 5, strong := 1 }] := by
    show (FileSerial.find [] 5).2 = _
    unfold FileSerial.find
    rw [hfes1]
    rfl
  have e2 : applyOp [{ key := 5, strong := 1 }] (RegOp.find 5) =
      [{ key := 5, strong := 2 }] := by
    show (FileSerial.find [{ key := 5, strong := 1 }] 5).2 = _
    unfold FileSerial.find
    rw [hfes2]
    rfl
  have e3 : applyOp [{ key := 5, strong := 2 }] (RegOp.find 3) =
      [{ key := 3, strong := 1 }, { key := 5, strong := 2 }] := by
    show (FileSerial.find [{ key := 5, strong := 2 }] 3).2 = _
    unfold FileSerial.find
    rw [hfes3]
    rfl
  have e4 : applyOp [{ key := 3, strong := 1 }, { key := 5, strong := 2 }]
      (RegOp.drop 5) =
      [{ key := 3, strong := 1 }, { key := 5, strong := 1 }] := rfl
  have e5 : applyOp [{ key := 3, strong := 1 }, { key := 5, strong := 1 }]
      (RegOp.drop 3) = [{ key := 5, strong := 1 }] := rfl
  have e6 : applyOp [{ key := 5, strong := 1 }] (RegOp.drop 5) = [] := rfl
  have hv : validFrom [] [RegOp.find 5, RegOp.find 5, RegOp.find 3,
      RegOp.drop 5, RegOp.drop 3, RegOp.drop 5] = true := by
    simp only [validFrom, e1, e2, e3, e4, e5, e6]
    decide
  exact ⟨hv, C1_registry_at_most_one_serial_per_key _ hv⟩
